import Mathlib

/-!
# lst2cmt (lwasm listing to MAME comment file) and the Cassette BASIC path header

Shallow embedding of `lst2cmt/lst2cmt.c` and of the declarations of
`include/cecbpath.h`, followed by the properties established about them.

Conventions of the embedding

* A C string is the list of its characters before the terminating NUL, one
  `Char` per byte (`CStr`).
* `unsigned int` is a `Nat` kept below `2^32` by an explicit `% 2^32` wherever
  the C arithmetic can wrap.
* A function that can hand back a buffer it never wrote returns `Option`:
  `none` stands for "the contents are whatever the allocator left there".
  Where the program goes on to read such a buffer, the characters the
  allocator left in it are a parameter `heap` of the definition.
-/

set_option autoImplicit false

namespace Lst2cmt

/-- A C string: the characters before the terminating NUL. -/
abbrev CStr := List Char

/-- The double quote character. -/
def dq : Char := Char.ofNat 34

/-- The apostrophe character. -/
def apos : Char := Char.ofNat 39

/-- The `isspace` of `<ctype.h>` in the C locale: space, `\t`, `\n`, `\v`, `\f`, `\r`. -/
def isspace (c : Char) : Bool :=
  c = ' ' || c = '\t' || c = '\n' || c = Char.ofNat 11 || c = Char.ofNat 12 || c = '\r'

/-! ## String helpers (`lst2cmt.c` lines 292-484) -/

/-- The `while (i<l)` loop of `Mid`: `r[j] = s[i]; j++; i++; r[j] = 0; if (j==length) break;`.
The first argument is `length`, the second what is left of `s` from index `i`,
then `j` and the characters written to `r` so far. -/
def Mid.loop (length : Nat) : CStr → Nat → CStr → CStr
  | [], _, r => r
  | c :: rest, j, r =>
    if j + 1 = length then r ++ [c] else Mid.loop length rest (j + 1) (r ++ [c])

/-- The function `Mid(s, start, length)`. The result buffer comes from `malloc` and is only
written inside the loop, so when `start - 1` is not below `strlen(s)` the loop
body never runs and the function returns memory it never initialised: `none`. -/
def Mid (s : CStr) (start length : Nat) : Option CStr :=
  if start - 1 < s.length then some (Mid.loop length (s.drop (start - 1)) 0 []) else none

/-- The C string read from the buffer that `Mid(s, start, length)` returns:
what `Mid` wrote or, when it wrote nothing, the characters `heap` that the
allocator left in that buffer before the first NUL. -/
def Mid_read (heap s : CStr) (start length : Nat) : CStr :=
  match Mid s start length with
  | some r => r
  | none => heap

/-- The function `RTrim(s)`: copy `s`, then walk back from the last character overwriting it with
NUL while it is a space character. -/
def RTrim (s : CStr) : CStr :=
  (s.reverse.dropWhile isspace).reverse

/-- The `while (i<l)` loop of `LTrim` with its `done_trim` flag; the last
argument is what has been written to `r`. -/
def LTrim.loop : CStr → Bool → CStr → CStr
  | [], _, r => r
  | z :: rest, done_trim, r =>
    if isspace z && !done_trim then LTrim.loop rest done_trim r
    else LTrim.loop rest true (r ++ [z])

/-- The function `LTrim(s)`; `r[0] = 0` is set before the loop. -/
def LTrim (s : CStr) : CStr :=
  LTrim.loop s false []

/-- The function `Trim(s) = LTrim(RTrim(s))`. -/
def Trim (s : CStr) : CStr :=
  LTrim (RTrim s)

/-- One iteration of the loop of `Hex2Dec` on an `unsigned int` accumulator. -/
def Hex2Dec.step (result : Nat) (c : Char) : Nat :=
  if '0'.toNat ≤ c.toNat ∧ c.toNat ≤ '9'.toNat then
    ((result <<< 4) % 2 ^ 32) ||| (c.toNat - '0'.toNat)
  else if 'a'.toNat ≤ c.toNat ∧ c.toNat ≤ 'f'.toNat then
    ((result <<< 4) % 2 ^ 32) ||| (c.toNat - 'a'.toNat + 10)
  else if 'A'.toNat ≤ c.toNat ∧ c.toNat ≤ 'F'.toNat then
    ((result <<< 4) % 2 ^ 32) ||| (c.toNat - 'A'.toNat + 10)
  else result

/-- The function `Hex2Dec(s)`: characters that are not hexadecimal digits are skipped. -/
def Hex2Dec (s : CStr) : Nat :=
  s.foldl Hex2Dec.step 0

/-- The function `HexString2Buffer(s, buf)`: the bytes stored to `buf[0]`, `buf[1]`, ... in order.
Each store converts `Hex2Dec(temp)` to `unsigned char`. When `strlen(s)` is odd
the last `temp` holds one character followed by the NUL of `s`. (The caller's
`buf` has `17/2 = 8` elements; the list keeps every byte stored.) -/
def HexString2Buffer : CStr → List Nat
  | [] => []
  | [a] => [Hex2Dec [a] % 256]
  | a :: b :: rest => (Hex2Dec [a, b] % 256) :: HexString2Buffer rest

/-- The replacement text of one character in `EscapeXML`. -/
def EscapeXML.one (c : Char) : CStr :=
  if c = dq then "&quot;".toList
  else if c = apos then "&apos;".toList
  else if c = '<' then "&lt;".toList
  else if c = '>' then "&gt;".toList
  else if c = '&' then "&amp;".toList
  else [c]

/-- The function `EscapeXML(s)` (second loop; the first only sizes the buffer). -/
def EscapeXML : CStr → CStr
  | [] => []
  | c :: rest => EscapeXML.one c ++ EscapeXML rest

/-- One pass of the inner `for (j = 7; j >= 0; j--)` loop of `crc32b`. -/
def crc32b.bit (crc : Nat) : Nat :=
  let mask := if crc &&& 1 = 1 then 0xFFFFFFFF else 0
  (crc >>> 1) ^^^ (0xEDB88320 &&& mask)

/-- One pass of the outer loop of `crc32b`. -/
def crc32b.byte (crc byte : Nat) : Nat :=
  crc32b.bit^[8] (crc ^^^ byte)

/-- The function `crc32b(message, length)` over the first `length` bytes of `message`. -/
def crc32b (message : List Nat) (length : Nat) : Nat :=
  ((message.take length).foldl crc32b.byte 0xFFFFFFFF) ^^^ 0xFFFFFFFF

/-- The `printf` conversion `%u`. -/
def fmt_u (n : Nat) : CStr :=
  Nat.toDigits 10 n

/-- The `printf` conversion `%X`: hexadecimal with the letters `A`-`F`. -/
def fmt_X (n : Nat) : CStr :=
  (Nat.toDigits 16 n).map Char.toUpper

/-! ## The loop body of `do_command` (`lst2cmt.c` lines 215-266) -/

/-- The value `memory_location = Hex2Dec(Trim(Mid(line, 1, 4)))` (line 221). -/
def memory_location (line : CStr) : Option Nat :=
  (Mid line 1 4).map fun m => Hex2Dec (Trim m)

/-- The string `memory_contents_readable = Trim(Mid(line, 5, 17))` (line 225). -/
def memory_contents_readable (line : CStr) : Option CStr :=
  (Mid line 5 17).map Trim

/-- The string `memory_contents_readable` as the program reads it (line 225),
`heap` being what the allocator left in the buffer of `Mid(line, 5, 17)`. -/
def memory_contents_read (heap line : CStr) : CStr :=
  Trim (Mid_read heap line 5 17)

/-- The three tests that end in `continue` (lines 219, 223, 227) all let the
line through: it is not empty, `memory_location` is not 0 and the string read
as `memory_contents_readable` is not empty. On a line of fewer than 5
characters the third test reads the buffer `Mid` never wrote, so the answer
depends on `heap`, the characters the allocator left there. -/
def yields_comment (heap line : CStr) : Bool :=
  !line.isEmpty &&
  (match memory_location line with
   | some m => m != 0
   | none => false) &&
  !(memory_contents_read heap line).isEmpty

/-- The buffer `line_number` after lines 229-238. -/
def line_number (nolinenumbers : Int) (line : CStr) : Option CStr :=
  if nolinenumbers ≠ 0 then some []
  else (Mid line 43 14).map fun m => Trim m ++ ": ".toList

/-- The buffer `listing_line` after line 241. -/
def listing_line (nolinenumbers : Int) (line : CStr) : Option CStr :=
  match line_number nolinenumbers line with
  | none => none
  | some n =>
    match Mid line 57 256 with
    | none => none
    | some m => some (n ++ RTrim m)

/-- The value `memory_contents_crc` (lines 243-245). -/
def memory_contents_crc (memory_contents_readable : CStr) : Nat :=
  crc32b (HexString2Buffer memory_contents_readable) (memory_contents_readable.length / 2)

/-- The text written by the `fprintf` of line 249 or of line 253; the address
argument is the `unsigned int` sum `memory_location + offset`. -/
def comment_open_text (nocrc_flag : Int) (memory_location offset crc : Nat) : CStr :=
  if nocrc_flag ≠ 0 then
    "            <comment address=\"".toList ++ fmt_u ((memory_location + offset) % 2 ^ 32)
      ++ "\" color=\"16711680\">\n".toList
  else
    "            <comment address=\"".toList ++ fmt_u ((memory_location + offset) % 2 ^ 32)
      ++ "\" color=\"16711680\" crc=\"".toList ++ fmt_X crc ++ "\">\n".toList

/-- The opening `<comment ...>` line written for `line` (lines 243-254), `heap`
being what the allocator left in the buffer of `Mid(line, 5, 17)`. -/
def comment_open (nocrc_flag : Int) (offset : Nat) (heap line : CStr) : Option CStr :=
  match memory_location line with
  | none => none
  | some ml =>
    some (comment_open_text nocrc_flag ml offset
      (memory_contents_crc (memory_contents_read heap line)))

/-- The comment body `EscapeXML(listing_line)` written by line 256, without
the indentation before it and the newline after it. -/
def comment_body (nolinenumbers : Int) (line : CStr) : Option CStr :=
  (listing_line nolinenumbers line).map EscapeXML

/-- Everything one pass of the `for` loop of lines 215-266 writes to the
output file for `line`: nothing after a `continue`, else the three lines of a
comment element; `none` when that output depends on a buffer `Mid` never
wrote. -/
def do_line (nocrc_flag nolinenumbers : Int) (offset : Nat) (line : CStr) : Option CStr :=
  if line.isEmpty then some []
  else
    match memory_location line with
    | none => none
    | some ml =>
      if ml = 0 then some []
      else
        match memory_contents_readable line with
        | none => none
        | some mcr =>
          if mcr.isEmpty then some []
          else
            match listing_line nolinenumbers line with
            | none => none
            | some ll =>
              some (comment_open_text nocrc_flag ml offset (memory_contents_crc mcr)
                ++ "                ".toList ++ EscapeXML ll ++ "\n".toList
                ++ "            </comment>\n".toList)

/-- The XML header `do_command` writes first (lines 146-151). -/
def do_command_header (system_name cpu_name : CStr) : CStr :=
  "<?xml version=\"1.0\"?>\n".toList
    ++ "<!-- This file is autogenerated; comments and unknown tags will be stripped -->\n".toList
    ++ "<mamecommentfile version=\"1\">\n".toList
    ++ "    <system name=\"".toList ++ system_name ++ "\">\n".toList
    ++ "        <cpu tag=\"".toList ++ cpu_name ++ "\">\n".toList

/-! ## The option loop of `main` (`lst2cmt.c` lines 50-123) -/

/-- The digit loop of `atoi`. -/
def atoi.digits : CStr → Int → Int
  | [], acc => acc
  | c :: rest, acc =>
    if '0'.toNat ≤ c.toNat ∧ c.toNat ≤ '9'.toNat then
      atoi.digits rest (acc * 10 + ((c.toNat - '0'.toNat : Nat) : Int))
    else acc

/-- The library function `atoi`: leading white space, an optional sign, then decimal digits;
the mathematical value (C leaves the result undefined when it does not fit `int`). -/
def atoi (s : CStr) : Int :=
  match s.dropWhile isspace with
  | '-' :: r => - atoi.digits r 0
  | '+' :: r => atoi.digits r 0
  | r => atoi.digits r 0

/-- Conversion of an `int` to `unsigned int`. -/
def to_unsigned (v : Int) : Nat :=
  (v % 2 ^ 32).toNat

/-- The local variables of `main` that are handed to `do_command`; a `NULL`
file name is `none`. -/
structure Settings where
  nocrc_flag : Int
  system_name : CStr
  cpu_name : CStr
  srcfilename : Option CStr
  destfilename : Option CStr
  nolinenumbers : Int
  offset : Nat
  deriving DecidableEq

/-- The initialisers of lines 56-62. -/
def Settings.initial : Settings where
  nocrc_flag := 0
  system_name := "coco".toList
  cpu_name := ":maincpu".toList
  srcfilename := none
  destfilename := none
  nolinenumbers := 0
  offset := 0

/-- The inner loop `for (p = &argv[i][1]; *p != 0; p++) switch (*p)` of lines
69-102, on the characters from `p` on. `none` is the `return (0)` after the help
message. The cases `o`, `c`, `s` and a matched `nocrc` / `nolinenumbers` move `p`
to the last character, so the loop ends there. -/
def option_chars (st : Settings) : CStr → Option Settings
  | [] => some st
  | c :: rest =>
    if c = 'o' then some { st with offset := to_unsigned (atoi rest) }
    else if c = 'n' then
      if c :: rest = "nocrc".toList then some { st with nocrc_flag := 1 }
      else if c :: rest = "nolinenumbers".toList then some { st with nolinenumbers := 1 }
      else option_chars st rest
    else if c = 'c' then some { st with cpu_name := rest }
    else if c = 's' then some { st with system_name := rest }
    else if c = 'h' ∨ c = '?' then none
    else option_chars st rest

/-- The `else` branch of lines 104-110: a file name argument. -/
def file_arg (st : Settings) (a : CStr) : Settings :=
  if st.srcfilename = none then { st with srcfilename := some a }
  else { st with destfilename := some a }

/-- The argument starts with `-` (the test of line 67). -/
def is_dash (a : CStr) : Bool :=
  match a with
  | c :: _ => c = '-'
  | [] => false

/-- The loop `for (i = 1; i < argc; i++)` of lines 65-111 over `argv[1..]`. -/
def option_loop (st : Settings) : List CStr → Option Settings
  | [] => some st
  | a :: rest =>
    if is_dash a then
      match option_chars st (a.drop 1) with
      | none => none
      | some st1 => option_loop st1 rest
    else option_loop (file_arg st a) rest

/-- What `main` ends up doing. -/
inductive Outcome where
  | help
  | run (st : Settings)
  deriving DecidableEq

/-- The function `main(argc, argv)`: the help message, or the call of `do_command` (line 119)
with the settings it is given. -/
def main (argv : List CStr) : Outcome :=
  match option_loop Settings.initial (argv.drop 1) with
  | none => Outcome.help
  | some st => if st.srcfilename = none then Outcome.help else Outcome.run st

/-! ## Notions used to state the properties -/

/-- The value of a hexadecimal digit character, if it is one. -/
def spec_hex_digit (c : Char) : Option Nat :=
  if '0'.toNat ≤ c.toNat ∧ c.toNat ≤ '9'.toNat then some (c.toNat - '0'.toNat)
  else if 'a'.toNat ≤ c.toNat ∧ c.toNat ≤ 'f'.toNat then some (c.toNat - 'a'.toNat + 10)
  else if 'A'.toNat ≤ c.toNat ∧ c.toNat ≤ 'F'.toNat then some (c.toNat - 'A'.toNat + 10)
  else none

/-- The number written by the hexadecimal digits of `s`, read left to right
(characters that are not hexadecimal digits do not count). -/
def spec_hex_value (s : CStr) : Nat :=
  (s.filterMap spec_hex_digit).foldl (fun acc d => acc * 16 + d) 0

/-- One pass of the loop of `option_loop`. -/
def option_step (st : Settings) (a : CStr) : Option Settings :=
  if is_dash a then option_chars st (a.drop 1) else some (file_arg st a)

/-- The argument is `-` followed by the letter `c` and any text. -/
def is_option (c : Char) (a : CStr) : Bool :=
  match a with
  | d :: e :: _ => d = '-' && e = c
  | _ => false

/-- An argument of one of the documented kinds: a file name, `-nocrc`,
`-nolinenumbers`, `-o<offset>`, `-s<system>` or `-c<cpu>`. -/
def simple_arg (a : CStr) : Bool :=
  !is_dash a || a = "-nocrc".toList || a = "-nolinenumbers".toList ||
  is_option 'o' a || is_option 's' a || is_option 'c' a

/-- The settings `r` with the two file names of `f`. -/
def with_files (f r : Settings) : Settings :=
  { r with srcfilename := f.srcfilename, destfilename := f.destfilename }

/-- Columns `first` to `last` of a line, counted from 1. -/
def spec_columns (line : CStr) (first last : Nat) : CStr :=
  (line.drop (first - 1)).take (last + 1 - first)

/-- The character `a` occurs immediately before the character `b`. -/
def adjacent (a b : Char) : CStr → Bool
  | x :: y :: rest => (x = a && y = b) || adjacent a b (y :: rest)
  | _ => false

/-- The tag carries a `crc` attribute. -/
def has_crc_attribute (tag : CStr) : Prop :=
  " crc=\"".toList <:+: tag

instance (tag : CStr) : Decidable (has_crc_attribute tag) := by
  unfold has_crc_attribute
  infer_instance

/-- A listing line that holds an address and nothing else. -/
def sample_address_line : CStr := "1000".toList

/-- Six bytes left in a freed allocation: none is NUL, a space character or a
hexadecimal digit. -/
def sample_heap : CStr :=
  [Char.ofNat 0x60, Char.ofNat 0x15, '~', 'U', 'U', 'U']

/-- A continuation line of an lwasm listing (address and bytes only). -/
def sample_continuation_line : CStr := "1008 0102030405060708".toList

/-- A full listing line: address in columns 1-4, bytes from column 6, the
line-number field `(t&1.asm):0001` in columns 43-56 and the source text from
column 57. -/
def sample_line : CStr :=
  "1000 8E1234                               (t&1.asm):0001start   ldx #$1234 ; <x>  ".toList

end Lst2cmt

namespace Cecb

/-! ## Declarations of `include/cecbpath.h` -/

/-- Modelled from the spec: the typedef `u_char` comes from a header that is
not among the sources; the payload fields of the spec are bytes, so one
`u_char` is one byte. -/
def sizeof_u_char : Nat := 1

/-- The members of `struct _cecb_dir_entry` that are not commented out
(lines 36-58), in declaration order, each with its number of `u_char`
elements. -/
def cecb_dir_entry_members : List (String × Nat) :=
  [("filename", 8), ("file_type", 1), ("ascii_flag", 1), ("gap_flag", 1),
   ("ml_load_address1", 1), ("ml_load_address2", 1),
   ("ml_exec_address1", 1), ("ml_exec_address2", 1)]

/-- The value of `sizeof` for a struct given by its member table: all members have alignment
1, so there is no padding. -/
def sizeof_members (ms : List (String × Nat)) : Nat :=
  (ms.map fun m => m.2 * sizeof_u_char).sum

/-- The value of `offsetof` for a member of a struct given by its member table. -/
def offsetof_member : List (String × Nat) → String → Option Nat
  | [], _ => none
  | m :: rest, name =>
    if m.1 = name then some 0
    else (offsetof_member rest name).map fun o => m.2 * sizeof_u_char + o

/-- The record `cecb_dir_entry` (lines 22-67); every member holds `u_char` values. -/
structure cecb_dir_entry where
  filename : List Nat
  file_type : Nat
  ascii_flag : Nat
  gap_flag : Nat
  ml_load_address1 : Nat
  ml_load_address2 : Nat
  ml_exec_address1 : Nat
  ml_exec_address2 : Nat
  deriving DecidableEq

/-- The bytes of a `cecb_dir_entry` object in memory: its members in
declaration order. -/
def cecb_dir_entry.bytes (e : cecb_dir_entry) : List Nat :=
  e.filename ++ [e.file_type, e.ascii_flag, e.gap_flag,
    e.ml_load_address1, e.ml_load_address2, e.ml_exec_address1, e.ml_exec_address2]

/-- The integer WAV members of `struct _cecb_path_id` (lines 94-99);
`wav_bits_per_sample` is an `unsigned short`. -/
structure cecb_path_id where
  wav_riff_size : Nat
  wav_data_start : Int
  wav_data_length : Int
  wav_total_samples : Int
  wav_sample_rate : Nat
  wav_bits_per_sample : Nat
  deriving DecidableEq

/-- The macro `WAV_SAMPLE_MUL` (line 72): `(path->wav_bits_per_sample == 8 ? 1 : 2)`. -/
def WAV_SAMPLE_MUL (path : cecb_path_id) : Nat :=
  if path.wav_bits_per_sample = 8 then 1 else 2

/-! ## Directory entries and blocks as the specification describes them

The functions behind `_cecb_create`, `_cecb_read_next_dir_entry` and
`_cecb_read_next_block` are declared in the header but their bodies are not
among the sources. -/

/-- Modelled from the spec: the directory entry of section 3 (8-byte filename,
file type, ASCII flag, gap flag, 16-bit load and execution addresses); the
encoder and decoder bodies are missing from the sources. -/
structure DirEntry where
  filename : List Nat
  file_type : Nat
  ascii_flag : Nat
  gap_flag : Nat
  load_address : Nat
  exec_address : Nat
  deriving DecidableEq

/-- Modelled from the spec: a valid directory entry has exactly 8 filename
bytes, byte-sized type and flags and 16-bit addresses (the validity the
round-trip property of section 8 quantifies over; no validator is in the sources). -/
def DirEntry.valid (d : DirEntry) : Prop :=
  d.filename.length = 8 ∧ (∀ b ∈ d.filename, b < 256) ∧ d.file_type < 256 ∧
  d.ascii_flag < 256 ∧ d.gap_flag < 256 ∧ d.load_address < 65536 ∧ d.exec_address < 65536

instance (d : DirEntry) : Decidable d.valid := by
  unfold DirEntry.valid
  infer_instance

/-- Modelled from the spec: filling a `cecb_dir_entry` from a directory entry
(the body of `_cecb_create` is missing); each 16-bit address is split into the
two address bytes of the header, high byte first. -/
def DirEntry.to_record (d : DirEntry) : cecb_dir_entry where
  filename := d.filename.map (· % 256)
  file_type := d.file_type % 256
  ascii_flag := d.ascii_flag % 256
  gap_flag := d.gap_flag % 256
  ml_load_address1 := d.load_address / 256 % 256
  ml_load_address2 := d.load_address % 256
  ml_exec_address1 := d.exec_address / 256 % 256
  ml_exec_address2 := d.exec_address % 256

/-- Modelled from the spec: the directory-entry payload of section 6 (the
encoder body is missing): the 15 bytes of the record. -/
def encode_dir_entry (d : DirEntry) : List Nat :=
  d.to_record.bytes

/-- Modelled from the spec: reading a directory entry back from a payload
(the body of `_cecb_read_next_dir_entry` is missing); a payload that is not 15
bytes long is rejected. -/
def decode_dir_entry (payload : List Nat) : Option DirEntry :=
  match payload.drop 8 with
  | [t, a, g, l1, l2, e1, e2] =>
    some { filename := payload.take 8, file_type := t, ascii_flag := a, gap_flag := g,
           load_address := l1 * 256 + l2, exec_address := e1 * 256 + e2 }
  | _ => none

/-- Modelled from the spec: a block of section 3 (type byte and payload; the
length byte is the payload length). No block type is defined in the sources. -/
structure Block where
  block_type : Nat
  data : List Nat
  deriving DecidableEq

/-- Modelled from the spec: a block has a type byte, a length byte `L` with
`0 ≤ L ≤ 255` and `L` payload bytes (section 8). -/
def Block.valid (b : Block) : Prop :=
  b.block_type < 256 ∧ b.data.length ≤ 255 ∧ ∀ x ∈ b.data, x < 256

instance (b : Block) : Decidable b.valid := by
  unfold Block.valid
  infer_instance

/-- Modelled from the spec: the 8-bit checksum, the sum of type, length and
payload bytes (section 6; the header comment on `checksum` says "8 bit checksum
from block_type thru ml_exec_address, inclusive"). The code computing it is
missing from the sources. -/
def checksum (block_type block_length : Nat) (data : List Nat) : Nat :=
  (block_type + block_length + data.sum) % 256

/-- Modelled from the spec: the framing of a block (section 6): the two sync
bytes `0x55 0x3C`, type, length, payload, checksum and the trailing `0x55`
(the magic values are those of the commented-out members of the header). The
encoder body is missing from the sources. -/
def encode_block (b : Block) : List Nat :=
  [0x55, 0x3C, b.block_type, b.data.length] ++ b.data
    ++ [checksum b.block_type b.data.length b.data, 0x55]

/-- Modelled from the spec: the ways reading a block fails (section 7). -/
inductive BlockError where
  | framing
  | truncated
  | checksum
  | trailer
  deriving DecidableEq

/-- Modelled from the spec: the assembler of section 4.4 on a byte stream that
starts at the sync marker (Read-Header, Read-Payload, Verify, Confirm-Trailer);
the body of `_cecb_read_next_block` is missing from the sources. -/
def decode_block : List Nat → Except BlockError Block
  | m1 :: m2 :: t :: len :: rest =>
    if m1 ≠ 0x55 ∨ m2 ≠ 0x3C then Except.error BlockError.framing
    else
      match rest.drop len with
      | ck :: m3 :: _ =>
        if checksum t len (rest.take len) ≠ ck then Except.error BlockError.checksum
        else if m3 ≠ 0x55 then Except.error BlockError.trailer
        else Except.ok { block_type := t, data := rest.take len }
      | _ => Except.error BlockError.truncated
  | _ => Except.error BlockError.truncated

/-- The byte stream with bit `k` of the byte at position `pos` inverted. -/
def flip_bit : List Nat → Nat → Nat → List Nat
  | [], _, _ => []
  | x :: xs, 0, k => (x ^^^ 2 ^ k) :: xs
  | x :: xs, pos + 1, k => x :: flip_bit xs pos k

/-! ## Sample values -/

/-- A sample directory entry: the machine-language file `TEST`. -/
def sample_dir_entry : DirEntry where
  filename := [84, 69, 83, 84, 32, 32, 32, 32]
  file_type := 2
  ascii_flag := 0
  gap_flag := 255
  load_address := 0x0E00
  exec_address := 0x0E12

/-- A sample `cecb_dir_entry` record. -/
def sample_record : cecb_dir_entry where
  filename := [66, 79, 79, 84, 32, 32, 32, 32]
  file_type := 2
  ascii_flag := 0
  gap_flag := 0
  ml_load_address1 := 0x0E
  ml_load_address2 := 0x00
  ml_exec_address1 := 0x0E
  ml_exec_address2 := 0x12

/-- A sample data block. -/
def sample_block : Block where
  block_type := 1
  data := [1, 2, 3, 4]

end Cecb

/-! # Properties of `lst2cmt.c` -/

namespace Lst2cmt

theorem Mid.loop_eq (length : Nat) (s : CStr) (j : Nat) (r : CStr) (hj : j < length) :
    Mid.loop length s j r = r ++ s.take (length - j) := by
  induction s generalizing j r with
  | nil => simp [Mid.loop]
  | cons c rest ih =>
    unfold Mid.loop
    by_cases h : j + 1 = length
    · have h1 : length - j = 1 := by omega
      simp [h, h1]
    · have h2 : j + 1 < length := by omega
      have h3 : length - j = (length - (j + 1)) + 1 := by omega
      rw [if_neg h, ih (j + 1) (r ++ [c]) h2, h3]
      simp

theorem Mid_eq (s : CStr) (start length : Nat) (hl : 0 < length) (hs : start - 1 < s.length) :
    Mid s start length = some ((s.drop (start - 1)).take length) := by
  unfold Mid
  rw [if_pos hs, Mid.loop_eq length _ 0 [] hl]
  simp

theorem Mid_eq_none (s : CStr) (start length : Nat) (hs : s.length ≤ start - 1) :
    Mid s start length = none := by
  unfold Mid
  rw [if_neg (by omega)]

theorem LTrim.loop_true (s r : CStr) : LTrim.loop s true r = r ++ s := by
  induction s generalizing r with
  | nil => simp [LTrim.loop]
  | cons z rest ih => simp [LTrim.loop, ih]

theorem LTrim.loop_false (s r : CStr) :
    LTrim.loop s false r = r ++ s.dropWhile isspace := by
  induction s generalizing r with
  | nil => simp [LTrim.loop]
  | cons z rest ih =>
    unfold LTrim.loop
    by_cases h : isspace z = true
    · simp [h, ih]
    · simp [h, LTrim.loop_true]

theorem LTrim_eq (s : CStr) : LTrim s = s.dropWhile isspace := by
  simp [LTrim, LTrim.loop_false]

theorem char_codes : '0'.toNat = 48 ∧ '9'.toNat = 57 ∧ 'a'.toNat = 97 ∧ 'f'.toNat = 102 ∧
    'A'.toNat = 65 ∧ 'F'.toNat = 70 := by
  decide

theorem spec_hex_digit_lt (c : Char) (d : Nat) (h : spec_hex_digit c = some d) : d < 16 := by
  obtain ⟨h0, h9, ha, hf, hA, hF⟩ := char_codes
  unfold spec_hex_digit at h
  rw [h0, h9, ha, hf, hA, hF] at h
  generalize c.toNat = n at h
  split_ifs at h <;> simp at h <;> omega

theorem shift_or_eq (r d : Nat) (hr : r < 2 ^ 28) (hd : d < 16) :
    ((r <<< 4) % 2 ^ 32) ||| d = r * 16 + d := by
  have h1 : r <<< 4 = 2 ^ 4 * r := by rw [Nat.shiftLeft_eq]; ring
  have h2 : 2 ^ 4 * r < 2 ^ 32 := by omega
  rw [h1, Nat.mod_eq_of_lt h2, ← Nat.mul_add_lt_is_or (by simpa using hd)]
  ring

theorem Hex2Dec.step_eq (r : Nat) (c : Char) (hr : r < 2 ^ 28) :
    Hex2Dec.step r c = match spec_hex_digit c with
      | some d => r * 16 + d
      | none => r := by
  obtain ⟨h0, h9, ha, hf, hA, hF⟩ := char_codes
  unfold Hex2Dec.step spec_hex_digit
  rw [h0, h9, ha, hf, hA, hF]
  generalize c.toNat = n
  split_ifs with h1 h2 h3
  · exact shift_or_eq r _ hr (by omega)
  · exact shift_or_eq r _ hr (by omega)
  · exact shift_or_eq r _ hr (by omega)
  · rfl

theorem Hex2Dec.foldl_eq (s : CStr) (r k : Nat) (hr : r < 16 ^ k) (hk : k + s.length ≤ 8) :
    s.foldl Hex2Dec.step r = (s.filterMap spec_hex_digit).foldl (fun acc d => acc * 16 + d) r := by
  induction s generalizing r k with
  | nil => rfl
  | cons c rest ih =>
    simp only [List.length_cons] at hk
    have hk7 : k ≤ 7 := by omega
    have hpow : 16 ^ k ≤ 16 ^ 7 := Nat.pow_le_pow_right (by norm_num) hk7
    have hr28 : r < 2 ^ 28 := by
      have : (16 : Nat) ^ 7 = 2 ^ 28 := by norm_num
      omega
    have hstep := Hex2Dec.step_eq r c hr28
    rw [List.foldl_cons, hstep]
    cases hd : spec_hex_digit c with
    | none =>
      rw [List.filterMap_cons_none hd]
      exact ih r k hr (by omega)
    | some d =>
      rw [List.filterMap_cons_some hd, List.foldl_cons]
      have hd16 := spec_hex_digit_lt c d hd
      refine ih (r * 16 + d) (k + 1) ?_ (by omega)
      rw [pow_succ]
      omega

theorem Hex2Dec_eq_spec (s : CStr) (h : s.length ≤ 8) : Hex2Dec s = spec_hex_value s :=
  Hex2Dec.foldl_eq s 0 0 (by norm_num) (by omega)

theorem isspace_codes (c : Char) (h : isspace c = true) :
    c.toNat = 32 ∨ (9 ≤ c.toNat ∧ c.toNat ≤ 13) := by
  unfold isspace at h
  simp only [Bool.or_eq_true, decide_eq_true_eq] at h
  rcases h with ((((h | h) | h) | h) | h) | h <;> subst h <;> decide

theorem Hex2Dec.step_isspace (r : Nat) (c : Char) (h : isspace c = true) :
    Hex2Dec.step r c = r := by
  obtain ⟨h0, h9, ha, hf, hA, hF⟩ := char_codes
  have hc := isspace_codes c h
  unfold Hex2Dec.step
  rw [h0, h9, ha, hf, hA, hF]
  generalize c.toNat = n at hc
  split_ifs <;> omega

theorem Hex2Dec.foldl_spaces (s : CStr) (r : Nat) (h : ∀ c ∈ s, isspace c = true) :
    s.foldl Hex2Dec.step r = r := by
  induction s generalizing r with
  | nil => rfl
  | cons c rest ih =>
    rw [List.foldl_cons, Hex2Dec.step_isspace r c (h c (by simp))]
    exact ih r (fun x hx => h x (by simp [hx]))

theorem Hex2Dec.foldl_dropWhile (s : CStr) (r : Nat) :
    (s.dropWhile isspace).foldl Hex2Dec.step r = s.foldl Hex2Dec.step r := by
  induction s generalizing r with
  | nil => rfl
  | cons c rest ih =>
    by_cases h : isspace c = true
    · rw [List.dropWhile_cons_of_pos h, List.foldl_cons, Hex2Dec.step_isspace r c h]
      exact ih r
    · rw [List.dropWhile_cons_of_neg h]

theorem RTrim_append (s : CStr) :
    RTrim s ++ (s.reverse.takeWhile isspace).reverse = s := by
  unfold RTrim
  rw [← List.reverse_append, List.takeWhile_append_dropWhile, List.reverse_reverse]

theorem Hex2Dec_RTrim (s : CStr) : Hex2Dec (RTrim s) = Hex2Dec s := by
  have h := RTrim_append s
  have hsp : ∀ c ∈ (s.reverse.takeWhile isspace).reverse, isspace c = true := by
    intro c hc
    rw [List.mem_reverse] at hc
    exact List.mem_takeWhile_imp hc
  unfold Hex2Dec
  conv_rhs => rw [← h]
  rw [List.foldl_append, Hex2Dec.foldl_spaces _ _ hsp]

theorem Hex2Dec_Trim (s : CStr) : Hex2Dec (Trim s) = Hex2Dec s := by
  unfold Trim
  rw [LTrim_eq]
  unfold Hex2Dec
  rw [Hex2Dec.foldl_dropWhile]
  exact Hex2Dec_RTrim s

theorem option_loop_cons (st : Settings) (a : CStr) (rest : List CStr) :
    option_loop st (a :: rest) = (option_step st a).bind fun s => option_loop s rest := by
  unfold option_step
  rw [option_loop]
  by_cases h : is_dash a = true
  · simp only [h, if_true]
    cases option_chars st (a.drop 1) <;> rfl
  · simp only [h, if_false, Bool.false_eq_true]
    rfl

theorem option_loop_append (st : Settings) (xs ys : List CStr) :
    option_loop st (xs ++ ys) = (option_loop st xs).bind fun s => option_loop s ys := by
  induction xs generalizing st with
  | nil => simp [option_loop]
  | cons a rest ih =>
    rw [List.cons_append, option_loop_cons, option_loop_cons]
    cases option_step st a with
    | none => rfl
    | some s => simpa using ih s

theorem is_option_eq (c : Char) (a : CStr) (h : is_option c a = true) :
    a = '-' :: c :: a.drop 2 := by
  match a, h with
  | d :: e :: t, h =>
    simp only [is_option, Bool.and_eq_true, decide_eq_true_eq] at h
    simp [h.1, h.2]

theorem option_step_o (st : Settings) (t : CStr) :
    option_step st ('-' :: 'o' :: t) = some { st with offset := to_unsigned (atoi t) } := by
  simp [option_step, is_dash, option_chars]

theorem option_step_s (st : Settings) (t : CStr) :
    option_step st ('-' :: 's' :: t) = some { st with system_name := t } := by
  simp [option_step, is_dash, option_chars]

theorem option_step_c (st : Settings) (t : CStr) :
    option_step st ('-' :: 'c' :: t) = some { st with cpu_name := t } := by
  simp [option_step, is_dash, option_chars]

theorem option_step_nocrc (st : Settings) :
    option_step st "-nocrc".toList = some { st with nocrc_flag := 1 } := by
  simp [option_step, is_dash, option_chars]

theorem option_step_nolinenumbers (st : Settings) :
    option_step st "-nolinenumbers".toList = some { st with nolinenumbers := 1 } := by
  simp [option_step, is_dash, option_chars]

theorem option_step_file (st : Settings) (a : CStr) (h : is_dash a = false) :
    option_step st a = some (file_arg st a) := by
  simp [option_step, h]

theorem option_step_simple (st : Settings) (a : CStr) (h : simple_arg a = true) :
    ∃ st1, option_step st a = some st1 ∧
      (is_option 'c' a = false → st1.cpu_name = st.cpu_name) ∧
      (is_option 'o' a = false → st1.offset = st.offset) ∧
      (is_option 's' a = false → st1.system_name = st.system_name) ∧
      (st1.srcfilename ≠ none ↔ (st.srcfilename ≠ none ∨ is_dash a = false)) := by
  unfold simple_arg at h
  simp only [Bool.or_eq_true, Bool.not_eq_true', decide_eq_true_eq] at h
  rcases h with ((((h | h) | h) | h) | h) | h
  · refine ⟨file_arg st a, option_step_file st a h, ?_, ?_, ?_, ?_⟩
    · intro _; unfold file_arg; split <;> rfl
    · intro _; unfold file_arg; split <;> rfl
    · intro _; unfold file_arg; split <;> rfl
    · unfold file_arg
      by_cases hs : st.srcfilename = none <;> simp [hs, h]
  · subst h
    exact ⟨_, option_step_nocrc st, fun _ => rfl, fun _ => rfl, fun _ => rfl, by simp [is_dash]⟩
  · subst h
    exact ⟨_, option_step_nolinenumbers st, fun _ => rfl, fun _ => rfl, fun _ => rfl,
      by simp [is_dash]⟩
  · have ha := is_option_eq _ a h
    rw [ha]
    refine ⟨_, option_step_o st _, fun _ => rfl, ?_, fun _ => rfl, by simp [is_dash]⟩
    intro hc; simp [is_option] at hc
  · have ha := is_option_eq _ a h
    rw [ha]
    refine ⟨_, option_step_s st _, fun _ => rfl, fun _ => rfl, ?_, by simp [is_dash]⟩
    intro hc; simp [is_option] at hc
  · have ha := is_option_eq _ a h
    rw [ha]
    refine ⟨_, option_step_c st _, ?_, fun _ => rfl, fun _ => rfl, by simp [is_dash]⟩
    intro hc; simp [is_option] at hc

theorem option_loop_simple (st : Settings) (args : List CStr)
    (h : ∀ a ∈ args, simple_arg a = true) :
    ∃ st1, option_loop st args = some st1 ∧
      ((∀ a ∈ args, is_option 'c' a = false) → st1.cpu_name = st.cpu_name) ∧
      ((∀ a ∈ args, is_option 'o' a = false) → st1.offset = st.offset) ∧
      ((∀ a ∈ args, is_option 's' a = false) → st1.system_name = st.system_name) ∧
      (st1.srcfilename ≠ none ↔ (st.srcfilename ≠ none ∨ ∃ a ∈ args, is_dash a = false)) := by
  induction args generalizing st with
  | nil => exact ⟨st, rfl, fun _ => rfl, fun _ => rfl, fun _ => rfl, by simp⟩
  | cons a rest ih =>
    obtain ⟨s1, hs1, hc1, ho1, hn1, hf1⟩ := option_step_simple st a (h a (by simp))
    obtain ⟨s2, hs2, hc2, ho2, hn2, hf2⟩ := ih s1 (fun x hx => h x (by simp [hx]))
    refine ⟨s2, ?_, ?_, ?_, ?_, ?_⟩
    · rw [option_loop_cons, hs1]; exact hs2
    · intro hall
      rw [hc2 (fun x hx => hall x (by simp [hx])), hc1 (hall a (by simp))]
    · intro hall
      rw [ho2 (fun x hx => hall x (by simp [hx])), ho1 (hall a (by simp))]
    · intro hall
      rw [hn2 (fun x hx => hall x (by simp [hx])), hn1 (hall a (by simp))]
    · rw [hf2, hf1]
      simp only [List.mem_cons, exists_eq_or_imp]
      exact or_assoc

theorem with_files_self (st : Settings) : with_files st st = st := rfl

theorem option_chars_with_files (f r : Settings) (p : CStr) :
    option_chars (with_files f r) p = (option_chars r p).map (with_files f) := by
  induction p with
  | nil => rfl
  | cons c rest ih =>
    unfold option_chars
    split_ifs <;> first | rfl | exact ih

theorem file_arg_with_files (f r : Settings) (a : CStr) :
    file_arg (with_files f r) a = with_files (file_arg f a) r := by
  unfold file_arg with_files
  by_cases h : f.srcfilename = none <;> simp [h]

theorem option_step_with_files (f r : Settings) (a : CStr) :
    option_step (with_files f r) a =
      if is_dash a then (option_step r a).map (with_files f)
      else some (with_files (file_arg f a) r) := by
  unfold option_step
  by_cases h : is_dash a = true
  · simp only [h, if_true]
    exact option_chars_with_files f r _
  · simp only [h, if_false, Bool.false_eq_true]
    rw [file_arg_with_files]

theorem option_loop_split (f r : Settings) (args : List CStr) :
    option_loop (with_files f r) args =
      (option_loop r (args.filter is_dash)).map
        (with_files ((args.filter fun a => !is_dash a).foldl file_arg f)) := by
  induction args generalizing f r with
  | nil => rfl
  | cons a rest ih =>
    rw [option_loop_cons, option_step_with_files]
    by_cases h : is_dash a = true
    · rw [List.filter_cons_of_pos h, List.filter_cons_of_neg (by simp [h]), option_loop_cons]
      simp only [h, if_true]
      cases option_step r a with
      | none => rfl
      | some s => simpa using ih f s
    · rw [List.filter_cons_of_neg h, List.filter_cons_of_pos (by simpa using h)]
      simp only [h, if_false, Bool.false_eq_true, Option.bind_some, List.foldl_cons]
      exact ih (file_arg f a) r

theorem EscapeXML_append (s t : CStr) : EscapeXML (s ++ t) = EscapeXML s ++ EscapeXML t := by
  induction s with
  | nil => rfl
  | cons c rest ih => simp [EscapeXML, ih]

theorem Mid_columns (line : CStr) (first last : Nat) (h1 : 1 ≤ first) (h2 : first ≤ last)
    (h3 : first ≤ line.length) :
    Mid line first (last + 1 - first) = some (spec_columns line first last) :=
  Mid_eq line first (last + 1 - first) (by omega) (by omega)

theorem Mid_isSome (line : CStr) (start length : Nat) (m : CStr)
    (h : Mid line start length = some m) : start - 1 < line.length := by
  by_contra hc
  rw [Mid_eq_none line start length (by omega)] at h
  exact Option.noConfusion h

theorem memory_location_eq (line : CStr) (h : line ≠ []) :
    memory_location line = some (spec_hex_value (spec_columns line 1 4)) := by
  have hlen : 1 ≤ line.length := by
    cases line with
    | nil => exact absurd rfl h
    | cons c rest => simp
  have hm := Mid_columns line 1 4 (by omega) (by omega) hlen
  unfold memory_location
  rw [show (4 : Nat) = 4 + 1 - 1 from rfl, hm]
  simp only [Option.map_some']
  rw [Hex2Dec_Trim, Hex2Dec_eq_spec]
  simp only [spec_columns, List.length_take]
  omega

theorem memory_contents_read_long (heap line : CStr) (h : 5 ≤ line.length) :
    memory_contents_read heap line = Trim (spec_columns line 5 21) := by
  have hmid := Mid_columns line 5 21 (by omega) (by omega) h
  unfold memory_contents_read Mid_read
  rw [show (17 : Nat) = 21 + 1 - 5 from rfl, hmid]

theorem memory_contents_read_short (heap line : CStr) (h : line.length < 5) :
    memory_contents_read heap line = Trim heap := by
  unfold memory_contents_read Mid_read
  rw [Mid_eq_none line 5 17 (by omega)]

theorem yields_comment_fields (heap line : CStr) (h : yields_comment heap line = true) :
    line ≠ [] ∧
    memory_location line = some (spec_hex_value (spec_columns line 1 4)) ∧
    spec_hex_value (spec_columns line 1 4) ≠ 0 ∧
    memory_contents_read heap line ≠ [] := by
  unfold yields_comment at h
  simp only [Bool.and_eq_true, Bool.not_eq_true', List.isEmpty_eq_false] at h
  obtain ⟨⟨hne, hml⟩, hmc⟩ := h
  have hloc := memory_location_eq line hne
  rw [hloc] at hml
  refine ⟨hne, hloc, ?_, hmc⟩
  simpa using hml

theorem columns_length (line : CStr) (first last : Nat) :
    (spec_columns line first last).length ≤ last + 1 - first := by
  simp only [spec_columns, List.length_take]
  omega

theorem RTrim_length (s : CStr) : (RTrim s).length ≤ s.length := by
  have h := congrArg List.length (RTrim_append s)
  simp only [List.length_append] at h
  omega

theorem Trim_length (s : CStr) : (Trim s).length ≤ s.length := by
  unfold Trim
  rw [LTrim_eq]
  have h1 := (List.dropWhile_sublist isspace (l := RTrim s)).length_le
  have h2 := RTrim_length s
  omega

theorem HexString2Buffer_length (s : CStr) : s.length / 2 ≤ (HexString2Buffer s).length := by
  induction s using HexString2Buffer.induct with
  | case1 => simp [HexString2Buffer]
  | case2 a => simp [HexString2Buffer]
  | case3 a b rest ih =>
    simp only [HexString2Buffer, List.length_cons]
    omega

theorem adjacent_cons (a b x : Char) (l : CStr) (h : adjacent a b l = true) :
    adjacent a b (x :: l) = true := by
  cases l with
  | nil => simp [adjacent] at h
  | cons y rest => simp [adjacent, h]

theorem adjacent_append_left (a b : Char) (s l : CStr) (h : adjacent a b l = true) :
    adjacent a b (s ++ l) = true := by
  induction s with
  | nil => exact h
  | cons x rest ih => exact adjacent_cons a b x _ ih

theorem adjacent_append_right (a b : Char) (l t : CStr) (h : adjacent a b l = true) :
    adjacent a b (l ++ t) = true := by
  induction l using adjacent.induct a b with
  | case1 x y rest ih =>
    simp only [adjacent, Bool.or_eq_true] at h
    simp only [List.cons_append, adjacent, Bool.or_eq_true]
    rcases h with h | h
    · exact Or.inl h
    · exact Or.inr (ih h)
  | case2 l hl =>
    unfold adjacent at h
    split at h
    · exact absurd rfl (hl _ _ _)
    · exact absurd h (by simp)

theorem adjacent_of_infix (a b : Char) (x l : CStr) (hx : adjacent a b x = true)
    (h : x <:+: l) : adjacent a b l = true := by
  obtain ⟨s, t, rfl⟩ := h
  exact adjacent_append_right a b _ t (adjacent_append_left a b s x hx)

theorem adjacent_append (a b : Char) (l1 l2 : CStr) (h1 : adjacent a b l1 = false)
    (h2 : adjacent a b l2 = false) (h3 : l1.getLast? ≠ some a) :
    adjacent a b (l1 ++ l2) = false := by
  induction l1 using adjacent.induct a b with
  | case1 x y rest ih =>
    simp only [adjacent, Bool.or_eq_false_iff] at h1
    simp only [List.cons_append, adjacent, Bool.or_eq_false_iff]
    refine ⟨h1.1, ?_⟩
    apply ih h1.2
    simpa [List.getLast?_cons_cons] using h3
  | case2 l hl =>
    match l, hl with
    | [], _ => simpa using h2
    | [x], _ =>
      have hx : x ≠ a := by simpa using h3
      cases l2 with
      | nil => simp [adjacent]
      | cons y rest =>
        simp only [List.singleton_append, adjacent, Bool.or_eq_false_iff]
        exact ⟨by simp [hx], h2⟩
    | x :: y :: rest, hl => exact absurd rfl (hl x y rest)

theorem adjacent_not_mem (a b : Char) (l : CStr) (h : a ∉ l) : adjacent a b l = false := by
  induction l using adjacent.induct a b with
  | case1 x y rest ih =>
    simp only [List.mem_cons, not_or] at h
    simp only [adjacent, Bool.or_eq_false_iff]
    refine ⟨?_, ih (by simp [h.2])⟩
    have : x ≠ a := fun e => h.1 e.symm
    simp [this]
  | case2 l hl =>
    unfold adjacent
    split
    · exact absurd rfl (hl _ _ _)
    · rfl

theorem digitChar_isDigit (d : Nat) (h : d < 10) : (Nat.digitChar d).isDigit = true := by
  interval_cases d <;> decide

theorem toDigitsCore_isDigit (fuel n : Nat) (ds : List Char)
    (hds : ∀ c ∈ ds, c.isDigit = true) :
    ∀ c ∈ Nat.toDigitsCore 10 fuel n ds, c.isDigit = true := by
  induction fuel generalizing n ds with
  | zero => simpa [Nat.toDigitsCore] using hds
  | succ fuel ih =>
    have hd : ∀ c ∈ Nat.digitChar (n % 10) :: ds, c.isDigit = true := by
      intro c hc
      rcases List.mem_cons.mp hc with h | h
      · rw [h]; exact digitChar_isDigit _ (Nat.mod_lt _ (by norm_num))
      · exact hds c h
    unfold Nat.toDigitsCore
    dsimp only
    split_ifs
    · exact hd
    · exact ih _ _ hd

theorem fmt_u_isDigit (n : Nat) : ∀ c ∈ fmt_u n, c.isDigit = true :=
  toDigitsCore_isDigit _ _ [] (by simp)

theorem no_crc_attribute (digits : CStr) (h : ∀ c ∈ digits, c.isDigit = true) :
    ¬ has_crc_attribute ("            <comment address=\"".toList ++ digits
      ++ "\" color=\"16711680\">\n".toList) := by
  intro hin
  have h1 := adjacent_of_infix 'r' 'c' _ _ (by decide) hin
  have hr : 'r' ∉ digits := fun hm => by
    have := h 'r' hm
    exact absurd this (by decide)
  have h2 : adjacent 'r' 'c' ("            <comment address=\"".toList ++ digits
      ++ "\" color=\"16711680\">\n".toList) = false := by
    rw [List.append_assoc]
    refine adjacent_append _ _ _ _ (by decide) ?_ (by decide)
    refine adjacent_append _ _ _ _ (adjacent_not_mem _ _ _ hr) (by decide) ?_
    intro hl
    exact hr (List.mem_of_getLast?_eq_some hl)
  rw [h2] at h1
  exact Bool.noConfusion h1

theorem comment_open_eq (nocrc_flag : Int) (offset : Nat) (heap line : CStr)
    (h : yields_comment heap line = true) :
    comment_open nocrc_flag offset heap line =
      some (comment_open_text nocrc_flag (spec_hex_value (spec_columns line 1 4)) offset
        (memory_contents_crc (memory_contents_read heap line))) := by
  obtain ⟨_, hloc, _, _⟩ := yields_comment_fields heap line h
  unfold comment_open
  rw [hloc]

theorem comment_body_none (nolinenumbers : Int) (line : CStr) (h : line.length < 57) :
    comment_body nolinenumbers line = none := by
  have hm : Mid line 57 256 = none := Mid_eq_none line 57 256 (by omega)
  unfold comment_body listing_line
  rw [hm]
  cases line_number nolinenumbers line <;> rfl

theorem comment_body_eq (nolinenumbers : Int) (line : CStr) (h : 57 ≤ line.length) :
    comment_body nolinenumbers line = some (EscapeXML
      ((if nolinenumbers ≠ 0 then [] else Trim (spec_columns line 43 56) ++ ": ".toList)
        ++ RTrim (spec_columns line 57 312))) := by
  have h1 := Mid_columns line 43 56 (by omega) (by omega) (by omega)
  have h2 := Mid_columns line 57 312 (by omega) (by omega) (by omega)
  unfold comment_body listing_line line_number
  rw [show (14 : Nat) = 56 + 1 - 43 from rfl, show (256 : Nat) = 312 + 1 - 57 from rfl, h1, h2]
  by_cases hn : nolinenumbers ≠ 0
  · simp [hn]
  · simp [hn]

/-- On a line of at least 5 characters that yields a comment the opening tag
is the address and color attributes followed, exactly when `nocrc_flag` is 0,
by a `crc` attribute with the `%X` rendering of `crc32b` over the first `n / 2`
bytes decoded from the trimmed columns 5-21. -/
theorem comment_open_crc_long_line (nocrc_flag : Int) (offset : Nat) (heap line : CStr)
    (h : yields_comment heap line = true) (hlong : 5 ≤ line.length) :
    (Trim (spec_columns line 5 21)).length ≤ 17 ∧
    (Trim (spec_columns line 5 21)).length / 2
      ≤ (HexString2Buffer (Trim (spec_columns line 5 21))).length ∧
    comment_open nocrc_flag offset heap line = some
      ("            <comment address=\"".toList
        ++ fmt_u ((spec_hex_value (spec_columns line 1 4) + offset) % 2 ^ 32)
        ++ (if nocrc_flag = 0 then
              "\" color=\"16711680\" crc=\"".toList
                ++ fmt_X (crc32b (HexString2Buffer (Trim (spec_columns line 5 21)))
                    ((Trim (spec_columns line 5 21)).length / 2))
                ++ "\">\n".toList
            else "\" color=\"16711680\">\n".toList)) ∧
    ∀ tag, comment_open nocrc_flag offset heap line = some tag →
      (has_crc_attribute tag ↔ nocrc_flag = 0) := by
  have hopen := comment_open_eq nocrc_flag offset heap line h
  rw [memory_contents_read_long heap line hlong] at hopen
  have hlen : (Trim (spec_columns line 5 21)).length ≤ 17 := by
    have h1 := Trim_length (spec_columns line 5 21)
    have h2 := columns_length line 5 21
    omega
  refine ⟨hlen, HexString2Buffer_length _, ?_, ?_⟩
  · rw [hopen]
    unfold comment_open_text memory_contents_crc
    by_cases hn : nocrc_flag = 0
    · simp [hn]
    · simp [hn]
  · intro tag htag
    rw [hopen] at htag
    have htag := (Option.some.inj htag).symm
    by_cases hn : nocrc_flag = 0
    · refine ⟨fun _ => hn, fun _ => ?_⟩
      rw [htag]
      unfold comment_open_text has_crc_attribute
      rw [if_neg (by simpa using hn)]
      refine ⟨"            <comment address=\"".toList
        ++ fmt_u ((spec_hex_value (spec_columns line 1 4) + offset) % 2 ^ 32)
        ++ "\" color=\"16711680\"".toList,
        fmt_X (memory_contents_crc (Trim (spec_columns line 5 21))) ++ "\">\n".toList, ?_⟩
      simp
    · refine ⟨fun hc => ?_, fun h0 => absurd h0 hn⟩
      rw [htag] at hc
      unfold comment_open_text at hc
      rw [if_pos hn] at hc
      exact absurd hc (no_crc_attribute _ (fmt_u_isDigit _))

/-- C1 (evaluation): on the line `1000` (an address and nothing else),
`Mid(line, 5, 17)` returns a buffer it never wrote. When the allocator left six
bytes there that are neither space characters nor hexadecimal digits, the third
`continue` test lets the line through and the tag carries `crc="FF41D912"`,
the CRC of the three bytes decoded from those allocator bytes; the trimmed
columns 5-21 of the line are empty and `crc32b` over their 0 bytes renders as
`0`. With an empty buffer the same line yields no comment. -/
theorem comment_open_crc_short_line :
    Mid sample_address_line 5 17 = none ∧
    yields_comment sample_heap sample_address_line = true ∧
    comment_open 0 0 sample_heap sample_address_line = some
      "            <comment address=\"4096\" color=\"16711680\" crc=\"FF41D912\">\n".toList ∧
    HexString2Buffer (memory_contents_read sample_heap sample_address_line) = [0, 0, 0] ∧
    Trim (spec_columns sample_address_line 5 21) = [] ∧
    fmt_X (crc32b (HexString2Buffer (Trim (spec_columns sample_address_line 5 21)))
      ((Trim (spec_columns sample_address_line 5 21)).length / 2)) = "0".toList ∧
    yields_comment [] sample_address_line = false :=
  ⟨by rfl, by rfl, by rfl, by rfl, by rfl, by rfl, by rfl⟩

/-- C2 (evaluation): with the arguments `lst2cmt a.lst a.cmt`, which hold no `-s`
option, `main` calls `do_command` with the system name `coco`, not the empty
string, and the header names that system. -/
theorem default_system_name_coco :
    ∃ st, main ["lst2cmt".toList, "a.lst".toList, "a.cmt".toList] = Outcome.run st ∧
      st.system_name = "coco".toList ∧ st.system_name ≠ [] ∧
      do_command_header st.system_name st.cpu_name =
        "<?xml version=\"1.0\"?>\n".toList
          ++ "<!-- This file is autogenerated; comments and unknown tags will be stripped -->\n".toList
          ++ "<mamecommentfile version=\"1\">\n".toList
          ++ "    <system name=\"coco\">\n".toList
          ++ "        <cpu tag=\":maincpu\">\n".toList :=
  ⟨_, rfl, rfl, by decide, rfl⟩

theorem comment_body_sample :
    comment_body 0 sample_line
      = some "(t&amp;1.asm):0001: start   ldx #$1234 ; &lt;x&gt;".toList ∧
    comment_body 1 sample_line = some "start   ldx #$1234 ; &lt;x&gt;".toList :=
  ⟨by rfl, by rfl⟩

/-- C4 (evaluation): the continuation line `1008 0102030405060708` yields a
comment, but `Mid(line, 57, 256)` returns a buffer it never wrote, so with
either setting of `nolinenumbers` the comment body is not determined by the
line (and neither is the output of the loop body). -/
theorem comment_body_short_line :
    (∀ heap : CStr, yields_comment heap sample_continuation_line = true) ∧
    Mid sample_continuation_line 57 256 = none ∧
    Mid sample_continuation_line 43 14 = none ∧
    (∀ nolinenumbers : Int, comment_body nolinenumbers sample_continuation_line = none) ∧
    (∀ (nocrc_flag nolinenumbers : Int) (offset : Nat),
      do_line nocrc_flag nolinenumbers offset sample_continuation_line = none) := by
  refine ⟨fun _ => by rfl, by rfl, by rfl, fun n => comment_body_none n _ (by decide), ?_⟩
  intro nocrc_flag nolinenumbers offset
  have hb := comment_body_none nolinenumbers sample_continuation_line (by decide)
  have hl : listing_line nolinenumbers sample_continuation_line = none := by
    unfold comment_body at hb
    cases hll : listing_line nolinenumbers sample_continuation_line with
    | none => rfl
    | some x => rw [hll] at hb; exact Option.noConfusion hb
  have h1 : memory_location sample_continuation_line = some 4104 := by rfl
  have h2 : memory_contents_readable sample_continuation_line
      = some "0102030405060708".toList := by rfl
  unfold do_line
  rw [h1, h2, hl]
  rfl

/-- C5: two argument lists (after `argv[0]`) with the same `-` arguments in the
same order and the same other arguments in the same order leave the option loop
of `main` with the same result: the same seven settings, or both the early
return after the help message; so `main` does the same for both. -/
theorem option_loop_reorder (a b : List CStr)
    (hd : a.filter is_dash = b.filter is_dash)
    (hf : (a.filter fun x => !is_dash x) = b.filter fun x => !is_dash x) :
    option_loop Settings.initial a = option_loop Settings.initial b ∧
    ∀ p q : CStr, main (p :: a) = main (q :: b) := by
  have h : option_loop Settings.initial a = option_loop Settings.initial b := by
    have ha := option_loop_split Settings.initial Settings.initial a
    have hb := option_loop_split Settings.initial Settings.initial b
    rw [with_files_self] at ha hb
    rw [ha, hb, hd, hf]
  refine ⟨h, fun p q => ?_⟩
  unfold main
  simp only [List.drop_succ_cons, List.drop_zero]
  rw [h]

theorem option_loop_reorder_witness :
    (["-nocrc".toList, "a.lst".toList, "-o16".toList, "a.cmt".toList].filter is_dash
      = ["a.lst".toList, "a.cmt".toList, "-nocrc".toList, "-o16".toList].filter is_dash) ∧
    ((["-nocrc".toList, "a.lst".toList, "-o16".toList, "a.cmt".toList].filter
        fun x => !is_dash x)
      = ["a.lst".toList, "a.cmt".toList, "-nocrc".toList, "-o16".toList].filter
        fun x => !is_dash x) ∧
    (option_loop Settings.initial
        ["-nocrc".toList, "a.lst".toList, "-o16".toList, "a.cmt".toList]
      = option_loop Settings.initial
        ["a.lst".toList, "a.cmt".toList, "-nocrc".toList, "-o16".toList] ∧
    ∀ p q : CStr,
      main (p :: ["-nocrc".toList, "a.lst".toList, "-o16".toList, "a.cmt".toList])
        = main (q :: ["a.lst".toList, "a.cmt".toList, "-nocrc".toList, "-o16".toList])) :=
  ⟨by decide, by decide, option_loop_reorder _ _ (by decide) (by decide)⟩

theorem main_eq (prog : CStr) (args : List CStr) (st : Settings)
    (h : option_loop Settings.initial args = some st)
    (hs : st.srcfilename ≠ none ↔ (Settings.initial.srcfilename ≠ none ∨
      ∃ a ∈ args, is_dash a = false)) :
    main (prog :: args) =
      if args.any (fun a => !is_dash a) then Outcome.run st else Outcome.help := by
  unfold main
  simp only [List.drop_succ_cons, List.drop_zero]
  rw [h]
  have hi : Settings.initial.srcfilename = none := rfl
  by_cases hany : args.any (fun a => !is_dash a) = true
  · have hex : ∃ a ∈ args, is_dash a = false := by simpa using hany
    have hne : st.srcfilename ≠ none := hs.mpr (Or.inr hex)
    simp [hany, hne]
  · have hnex : ¬ ∃ a ∈ args, is_dash a = false := by simpa using hany
    have hnone : st.srcfilename = none := by
      by_contra hc
      rcases hs.mp hc with h1 | h1
      · exact h1 hi
      · exact hnex h1
    simp [hany, hnone]

/-- C6: for arguments made only of file names and the options `-nocrc`,
`-nolinenumbers`, `-o<offset>`, `-s<system>`, the option loop ends with the cpu
tag `:maincpu`; when such arguments also hold `-c` options and the last of them
is `-c<cpu>`, it ends with the cpu tag `<cpu>`. In both cases `main` passes
these settings to `do_command` when a file name is among the arguments (and
shows the help text otherwise). -/
theorem cpu_tag (prog : CStr) (pre post : List CStr) (cpu : CStr)
    (hpre : ∀ a ∈ pre, simple_arg a = true)
    (hpost : ∀ a ∈ post, simple_arg a = true ∧ is_option 'c' a = false) :
    (∃ st, option_loop Settings.initial post = some st ∧
      st.cpu_name = ":maincpu".toList ∧
      main (prog :: post) =
        if post.any (fun a => !is_dash a) then Outcome.run st else Outcome.help) ∧
    (∃ st, option_loop Settings.initial (pre ++ ('-' :: 'c' :: cpu) :: post) = some st ∧
      st.cpu_name = cpu ∧
      main (prog :: (pre ++ ('-' :: 'c' :: cpu) :: post)) =
        if (pre ++ ('-' :: 'c' :: cpu) :: post).any (fun a => !is_dash a)
        then Outcome.run st else Outcome.help) := by
  constructor
  · obtain ⟨st, hst, hc, _, _, hs⟩ :=
      option_loop_simple Settings.initial post (fun a ha => (hpost a ha).1)
    exact ⟨st, hst, hc (fun a ha => (hpost a ha).2), main_eq prog post st hst hs⟩
  · have hall : ∀ a ∈ pre ++ ('-' :: 'c' :: cpu) :: post, simple_arg a = true := by
      intro a ha
      rcases List.mem_append.mp ha with h | h
      · exact hpre a h
      · rcases List.mem_cons.mp h with h | h
        · rw [h]; simp [simple_arg, is_option, is_dash]
        · exact (hpost a h).1
    obtain ⟨st, hst, _, _, _, hs⟩ := option_loop_simple Settings.initial _ hall
    refine ⟨st, hst, ?_, main_eq prog _ st hst hs⟩
    obtain ⟨s1, hs1, _⟩ := option_loop_simple Settings.initial pre hpre
    obtain ⟨s2, hs2, hc, _⟩ :=
      option_loop_simple { s1 with cpu_name := cpu } post (fun a ha => (hpost a ha).1)
    have hloop : option_loop Settings.initial (pre ++ ('-' :: 'c' :: cpu) :: post) = some s2 := by
      rw [option_loop_append, hs1, Option.some_bind, option_loop_cons, option_step_c,
        Option.some_bind]
      exact hs2
    rw [hloop] at hst
    rw [← Option.some.inj hst]
    exact hc (fun a ha => (hpost a ha).2)

theorem cpu_tag_witness :
    (∀ a ∈ ["-c6809".toList, "-scoco3".toList], simple_arg a = true) ∧
    (∀ a ∈ ["a.lst".toList, "-nocrc".toList, "a.cmt".toList],
      simple_arg a = true ∧ is_option 'c' a = false) ∧
    ((∃ st, option_loop Settings.initial ["a.lst".toList, "-nocrc".toList, "a.cmt".toList]
        = some st ∧
      st.cpu_name = ":maincpu".toList ∧
      main ("lst2cmt".toList :: ["a.lst".toList, "-nocrc".toList, "a.cmt".toList]) =
        if ["a.lst".toList, "-nocrc".toList, "a.cmt".toList].any (fun a => !is_dash a)
        then Outcome.run st else Outcome.help) ∧
    (∃ st, option_loop Settings.initial
        (["-c6809".toList, "-scoco3".toList] ++ ('-' :: 'c' :: ":sub".toList)
          :: ["a.lst".toList, "-nocrc".toList, "a.cmt".toList]) = some st ∧
      st.cpu_name = ":sub".toList ∧
      main ("lst2cmt".toList :: (["-c6809".toList, "-scoco3".toList]
          ++ ('-' :: 'c' :: ":sub".toList)
          :: ["a.lst".toList, "-nocrc".toList, "a.cmt".toList])) =
        if (["-c6809".toList, "-scoco3".toList] ++ ('-' :: 'c' :: ":sub".toList)
          :: ["a.lst".toList, "-nocrc".toList, "a.cmt".toList]).any (fun a => !is_dash a)
        then Outcome.run st else Outcome.help)) :=
  ⟨by decide, by decide,
    cpu_tag "lst2cmt".toList ["-c6809".toList, "-scoco3".toList]
      ["a.lst".toList, "-nocrc".toList, "a.cmt".toList] ":sub".toList (by decide) (by decide)⟩

theorem do_line_eq (nocrc_flag nolinenumbers : Int) (offset : Nat) (heap line : CStr)
    (h : yields_comment heap line = true) (hlen : 57 ≤ line.length) :
    ∃ tag body, comment_open nocrc_flag offset heap line = some tag ∧
      comment_body nolinenumbers line = some body ∧
      do_line nocrc_flag nolinenumbers offset line =
        some (tag ++ "                ".toList ++ body ++ "\n".toList
          ++ "            </comment>\n".toList) := by
  obtain ⟨_, hloc, hne, hnil⟩ := yields_comment_fields heap line h
  have hlong := memory_contents_read_long heap line (by omega)
  rw [hlong] at hnil
  have hread : memory_contents_readable line = some (Trim (spec_columns line 5 21)) := by
    have hmid := Mid_columns line 5 21 (by omega) (by omega) (by omega)
    unfold memory_contents_readable
    rw [show (17 : Nat) = 21 + 1 - 5 from rfl, hmid]
    rfl
  have hbody := comment_body_eq nolinenumbers line hlen
  have hopen := comment_open_eq nocrc_flag offset heap line h
  rw [hlong] at hopen
  refine ⟨_, _, hopen, hbody, ?_⟩
  have hempty : line.isEmpty = false := by
    cases line with
    | nil => simp at hlen
    | cons c rest => rfl
  have hll : listing_line nolinenumbers line = some
      ((if nolinenumbers ≠ 0 then [] else Trim (spec_columns line 43 56) ++ ": ".toList)
        ++ RTrim (spec_columns line 57 312)) := by
    unfold comment_body at hbody
    cases hl : listing_line nolinenumbers line with
    | none => rw [hl] at hbody; exact Option.noConfusion hbody
    | some x =>
      have h1 := Mid_columns line 43 56 (by omega) (by omega) (by omega)
      have h2 := Mid_columns line 57 312 (by omega) (by omega) (by omega)
      unfold listing_line line_number at hl
      rw [show (14 : Nat) = 56 + 1 - 43 from rfl, show (256 : Nat) = 312 + 1 - 57 from rfl,
        h1, h2] at hl
      rw [← hl]
      by_cases hn : nolinenumbers ≠ 0
      · simp [hn]
      · simp [hn]
  have hmc : (Trim (spec_columns line 5 21)).isEmpty = false := by
    cases hT : Trim (spec_columns line 5 21) with
    | nil => exact absurd hT hnil
    | cons c rest => rfl
  unfold do_line
  rw [hempty, hloc, hread, hll]
  simp only [Bool.false_eq_true, if_false, hne, hmc]

end Lst2cmt

/-! # Properties of `cecbpath.h` and of the cassette format -/

namespace Cecb

theorem length_eq_eight {α : Type} (l : List α) (h : l.length = 8) :
    ∃ a b c d e f g i, l = [a, b, c, d, e, f, g, i] := by
  match l, h with
  | [a, b, c, d, e, f, g, i], _ => exact ⟨a, b, c, d, e, f, g, i, rfl⟩

/-- C7: the record `cecb_dir_entry` has 15 one-byte fields in the order of the
directory-entry payload: 8 filename bytes at offsets 0-7, the file type at 8,
the ASCII flag at 9, the gap flag at 10, the load address at 11-12 and the
execution address at 13-14; its size, the payload length, is `0x0F`. -/
theorem cecb_dir_entry_layout (e : cecb_dir_entry) (h : e.filename.length = 8) :
    sizeof_members cecb_dir_entry_members = 0x0F ∧
    (cecb_dir_entry_members.map fun m => m.2) = [8, 1, 1, 1, 1, 1, 1, 1] ∧
    offsetof_member cecb_dir_entry_members "filename" = some 0 ∧
    offsetof_member cecb_dir_entry_members "file_type" = some 8 ∧
    offsetof_member cecb_dir_entry_members "ascii_flag" = some 9 ∧
    offsetof_member cecb_dir_entry_members "gap_flag" = some 10 ∧
    offsetof_member cecb_dir_entry_members "ml_load_address1" = some 11 ∧
    offsetof_member cecb_dir_entry_members "ml_load_address2" = some 12 ∧
    offsetof_member cecb_dir_entry_members "ml_exec_address1" = some 13 ∧
    offsetof_member cecb_dir_entry_members "ml_exec_address2" = some 14 ∧
    e.bytes.length = 0x0F ∧
    e.bytes.take 8 = e.filename ∧
    e.bytes.drop 8 = [e.file_type, e.ascii_flag, e.gap_flag, e.ml_load_address1,
      e.ml_load_address2, e.ml_exec_address1, e.ml_exec_address2] := by
  refine ⟨by decide, by decide, by decide, by decide, by decide, by decide, by decide,
    by decide, by decide, by decide, ?_, ?_, ?_⟩
  · simp [cecb_dir_entry.bytes, h]
  · simp [cecb_dir_entry.bytes, ← h]
  · simp [cecb_dir_entry.bytes, ← h]

theorem cecb_dir_entry_layout_witness :
    sample_record.filename.length = 8 ∧
    (sizeof_members cecb_dir_entry_members = 0x0F ∧
    (cecb_dir_entry_members.map fun m => m.2) = [8, 1, 1, 1, 1, 1, 1, 1] ∧
    offsetof_member cecb_dir_entry_members "filename" = some 0 ∧
    offsetof_member cecb_dir_entry_members "file_type" = some 8 ∧
    offsetof_member cecb_dir_entry_members "ascii_flag" = some 9 ∧
    offsetof_member cecb_dir_entry_members "gap_flag" = some 10 ∧
    offsetof_member cecb_dir_entry_members "ml_load_address1" = some 11 ∧
    offsetof_member cecb_dir_entry_members "ml_load_address2" = some 12 ∧
    offsetof_member cecb_dir_entry_members "ml_exec_address1" = some 13 ∧
    offsetof_member cecb_dir_entry_members "ml_exec_address2" = some 14 ∧
    sample_record.bytes.length = 0x0F ∧
    sample_record.bytes.take 8
      = sample_record.filename ∧
    sample_record.bytes.drop 8
      = [sample_record.file_type,
         sample_record.ascii_flag,
         sample_record.gap_flag,
         sample_record.ml_load_address1,
         sample_record.ml_load_address2,
         sample_record.ml_exec_address1,
         sample_record.ml_exec_address2]) :=
  ⟨by decide, cecb_dir_entry_layout sample_record (by decide)⟩

/-- C8: `WAV_SAMPLE_MUL` is 1 exactly when `wav_bits_per_sample` is 8 and 2
exactly when it is any other value. -/
theorem wav_sample_mul (path : cecb_path_id) :
    (WAV_SAMPLE_MUL path = 1 ↔ path.wav_bits_per_sample = 8) ∧
    (WAV_SAMPLE_MUL path = 2 ↔ path.wav_bits_per_sample ≠ 8) := by
  unfold WAV_SAMPLE_MUL
  by_cases h : path.wav_bits_per_sample = 8 <;> simp [h]

theorem map_mod_eq (l : List Nat) (h : ∀ b ∈ l, b < 256) : l.map (· % 256) = l := by
  induction l with
  | nil => rfl
  | cons x rest ih =>
    simp only [List.map_cons]
    rw [ih (fun b hb => h b (by simp [hb])), Nat.mod_eq_of_lt (h x (by simp))]

/-- C10: encoding a valid directory entry as a directory-entry payload and
decoding that payload gives back the same filename, type, flags and addresses;
the payload has `0x0F` bytes. -/
theorem dir_entry_round_trip (d : DirEntry) (h : d.valid) :
    decode_dir_entry (encode_dir_entry d) = some d ∧ (encode_dir_entry d).length = 0x0F := by
  obtain ⟨hlen, hb, ht, ha, hg, hl, he⟩ := h
  obtain ⟨f0, f1, f2, f3, f4, f5, f6, f7, hf⟩ := length_eq_eight d.filename hlen
  have hmap := map_mod_eq d.filename hb
  have h1 : d.load_address / 256 % 256 * 256 + d.load_address % 256 = d.load_address := by omega
  have h2 : d.exec_address / 256 % 256 * 256 + d.exec_address % 256 = d.exec_address := by omega
  unfold encode_dir_entry DirEntry.to_record cecb_dir_entry.bytes
  simp only [hmap, Nat.mod_eq_of_lt ht, Nat.mod_eq_of_lt ha, Nat.mod_eq_of_lt hg]
  rw [hf]
  refine ⟨?_, by simp⟩
  unfold decode_dir_entry
  simp only [List.cons_append, List.nil_append, List.drop_succ_cons, List.drop_zero, h1, h2]
  cases d
  simp_all

theorem dir_entry_round_trip_witness :
    sample_dir_entry.valid ∧
    (decode_dir_entry (encode_dir_entry sample_dir_entry) = some sample_dir_entry ∧
      (encode_dir_entry sample_dir_entry).length = 0x0F) :=
  ⟨by decide, dir_entry_round_trip sample_dir_entry (by decide)⟩

theorem flip_bit_length (l : List Nat) (pos k : Nat) : (flip_bit l pos k).length = l.length := by
  induction l generalizing pos with
  | nil => rfl
  | cons x rest ih =>
    cases pos with
    | zero => rfl
    | succ p => simp [flip_bit, ih]

theorem flip_bit_append (l t : List Nat) (pos k : Nat) (h : pos < l.length) :
    flip_bit (l ++ t) pos k = flip_bit l pos k ++ t := by
  induction l generalizing pos with
  | nil => simp at h
  | cons x rest ih =>
    cases pos with
    | zero => rfl
    | succ p =>
      simp only [List.cons_append, flip_bit, List.cons.injEq, true_and]
      exact ih p (by simpa using h)

theorem flip_bit_sum (l : List Nat) (pos k : Nat) (h : pos < l.length) :
    ∃ x ∈ l, (flip_bit l pos k).sum + x = l.sum + (x ^^^ 2 ^ k) := by
  induction l generalizing pos with
  | nil => simp at h
  | cons y rest ih =>
    cases pos with
    | zero =>
      refine ⟨y, by simp, ?_⟩
      simp only [flip_bit, List.sum_cons]
      omega
    | succ p =>
      obtain ⟨x, hx, hsum⟩ := ih p (by simpa using h)
      refine ⟨x, by simp [hx], ?_⟩
      simp only [flip_bit, List.sum_cons]
      omega

theorem xor_bit_ne (x k : Nat) : x ^^^ 2 ^ k ≠ x := by
  intro h
  have h0 : x ^^^ 2 ^ k = x ^^^ 0 := by rw [h, Nat.xor_zero]
  have := Nat.xor_right_injective h0
  exact absurd this (by positivity)

theorem xor_bit_lt (x k : Nat) (hx : x < 256) (hk : k < 8) : x ^^^ 2 ^ k < 256 := by
  have h1 : x < 2 ^ 8 := by simpa using hx
  have h2 : 2 ^ k < 2 ^ 8 := Nat.pow_lt_pow_right (by norm_num) hk
  simpa using Nat.xor_lt_two_pow h1 h2

theorem decode_block_frame (t : Nat) (data : List Nat) (ck : Nat) :
    decode_block ([0x55, 0x3C, t, data.length] ++ data ++ [ck, 0x55]) =
      if checksum t data.length data ≠ ck then Except.error BlockError.checksum
      else Except.ok { block_type := t, data := data } := by
  simp [decode_block]

/-- C9: for every block with a type byte, a length byte `L ≤ 255` and `L`
payload bytes, reading back the encoded block succeeds (the checksum computed
over type, length and payload equals the checksum byte that was written), and
after inverting any one bit of any payload byte the read fails with the checksum
error. -/
theorem block_checksum (b : Block) (h : b.valid) :
    decode_block (encode_block b) = Except.ok b ∧
    (encode_block b).drop (4 + b.data.length)
      = [checksum b.block_type b.data.length b.data, 0x55] ∧
    ∀ j k, j < b.data.length → k < 8 →
      decode_block (flip_bit (encode_block b) (4 + j) k)
        = Except.error BlockError.checksum := by
  obtain ⟨_, _, hbytes⟩ := h
  refine ⟨?_, ?_, ?_⟩
  · unfold encode_block
    rw [decode_block_frame]
    simp
  · unfold encode_block
    rw [show 4 + b.data.length = b.data.length + 1 + 1 + 1 + 1 by omega]
    simp only [List.cons_append, List.nil_append, List.drop_succ_cons]
    exact List.drop_left _ _
  · intro j k hj hk
    have hflip : flip_bit (encode_block b) (4 + j) k =
        [0x55, 0x3C, b.block_type, (flip_bit b.data j k).length] ++ flip_bit b.data j k
          ++ [checksum b.block_type b.data.length b.data, 0x55] := by
      unfold encode_block
      rw [flip_bit_length, show 4 + j = j + 1 + 1 + 1 + 1 by omega]
      simp only [List.cons_append, List.nil_append, flip_bit, List.cons.injEq, true_and]
      exact flip_bit_append _ _ j k hj
    rw [hflip, decode_block_frame, if_pos]
    obtain ⟨x, hx, hsum⟩ := flip_bit_sum b.data j k hj
    have hx256 := hbytes x hx
    have hne := xor_bit_ne x k
    have hlt := xor_bit_lt x k hx256 hk
    unfold checksum
    rw [flip_bit_length]
    omega

theorem block_checksum_witness :
    sample_block.valid ∧
    (decode_block (encode_block sample_block) = Except.ok sample_block ∧
    (encode_block sample_block).drop (4 + sample_block.data.length)
      = [checksum sample_block.block_type sample_block.data.length sample_block.data, 0x55] ∧
    ∀ j k, j < sample_block.data.length → k < 8 →
      decode_block (flip_bit (encode_block sample_block) (4 + j) k)
        = Except.error BlockError.checksum) :=
  ⟨by decide, block_checksum sample_block (by decide)⟩

end Cecb
